import Mathlib

/-!
Verification of the elbow-selection spec for the NDDCollabs notebook
(`select_dimension/advancedASE.ipynb`).

The notebook itself is glue code over an external embedding library; the
elbow-selection routine `select_dimension` that the spec documents is not
part of the repository source, so it is modelled here from the spec's own
words (profile-likelihood split-point selection with smallest-index tie
breaking).  The notebook cells that do contain original logic (the block
probability matrix extension loop of cell-8 and the boolean fancy-indexing
statements of cell-27) are embedded directly from the source.
-/

namespace ElbowSel

/-- Modelled from the spec: arithmetic mean of a group of values (the
maximum-likelihood estimate of a Gaussian mean).  The empty list gets the
junk value `0 / 0 = 0`; it is never used on an empty group by the selector. -/
def mean (xs : List ℚ) : ℚ := xs.sum / xs.length

/-- Modelled from the spec: residual sum of squares of a group about its
maximum-likelihood Gaussian mean. -/
def rssOf (xs : List ℚ) : ℚ := (xs.map (fun x => (x - mean xs) ^ 2)).sum

/-- Modelled from the spec: pooled residual sum of squares of the split
"first `i` values in one group, the rest in the other". -/
def splitRSS (xs : List ℚ) (i : ℕ) : ℚ := rssOf (xs.take i) + rssOf (xs.drop i)

/-- Left fold selecting the element of `i :: is` with the smallest score
`f`; on ties the earlier element wins (strict comparison). -/
def pickMin (f : ℕ → ℚ) (i : ℕ) (is : List ℕ) : ℕ :=
  is.foldl (fun b j => if f j < f b then j else b) i

/-- Modelled from the spec: the candidate split points of a sequence, the
1-based positions `1, …, length − 1` (both groups nonempty). -/
def candidates (xs : List ℚ) : List ℕ := List.range' 1 (xs.length - 1)

/-- Modelled from the spec: the first elbow of a sequence, the candidate
split point minimising the pooled residual sum of squares (equivalently,
maximising the two-group Gaussian profile likelihood; the equivalence is
proved below), ties broken towards the smallest index.  `none` when the
sequence has fewer than two elements. -/
def firstElbow (xs : List ℚ) : Option ℕ :=
  match candidates xs with
  | [] => none
  | i :: is => some (pickMin (splitRSS xs) i is)

/-- Modelled from the spec: the two error conditions of `select_dimension`. -/
inductive SelErr where
  | invalidInput : SelErr
  | unsatisfiable : SelErr
deriving DecidableEq

/-- Modelled from the spec: recursive elbow search.  `n` further elbows are
requested; `xs` is the sub-sequence strictly following the previous elbow
and `off` its offset, so returned indices are absolute 1-based positions. -/
def elbowsAux : ℕ → List ℚ → ℕ → Except SelErr (List ℕ)
  | 0, _, _ => .ok []
  | n + 1, xs, off =>
    match firstElbow xs with
    | none => .error .unsatisfiable
    | some e => (elbowsAux n (xs.drop e) (off + e)).map (fun es => (off + e) :: es)

/-- Modelled from the spec: the selection result, the ordered elbow indices
together with the recommended dimension (the last elbow found). -/
structure SelectionResult where
  elbows : List ℕ
  dimension : ℕ
deriving DecidableEq

/-- Modelled from the spec: validity of an input to `select_dimension`
(length at least 2, no negative value, at least one elbow requested). -/
def validInput (values : List ℚ) (n_elbows : ℕ) : Prop :=
  2 ≤ values.length ∧ (∀ x ∈ values, 0 ≤ x) ∧ 1 ≤ n_elbows

instance (values : List ℚ) (n_elbows : ℕ) : Decidable (validInput values n_elbows) := by
  unfold validInput; infer_instance

/-- Modelled from the spec: `select_dimension`.  Validates the input, finds
`n_elbows` elbows by repeated profile-likelihood splitting of the suffix
after the previous elbow, and reports the last elbow as the recommended
dimension.  Fails with `invalidInput` on an invalid input and with
`unsatisfiable` when fewer elbows exist than requested. -/
def select_dimension (values : List ℚ) (n_elbows : ℕ) :
    Except SelErr SelectionResult :=
  if validInput values n_elbows then
    match elbowsAux n_elbows values 0 with
    | .error err => .error err
    | .ok es => .ok ⟨es, es.getLastD 0⟩
  else
    .error .invalidInput

/-- Fuel-indexed count of the elbows that exist in a sequence: repeatedly
take the first elbow and continue on the suffix strictly after it; the
suffix is strictly shorter each time, so `xs.length` fuel suffices. -/
def countElbowsAux : ℕ → List ℚ → ℕ
  | 0, _ => 0
  | fuel + 1, xs =>
    match firstElbow xs with
    | none => 0
    | some e => 1 + countElbowsAux fuel (xs.drop e)

/-- Modelled from the spec: the number of elbows that exist in a sequence
(how many times the recursive search can split before the suffix is
exhausted).  `select_dimension` fails with `unsatisfiable` exactly when
this count is below `n_elbows`. -/
def countElbows (xs : List ℚ) : ℕ := countElbowsAux xs.length xs

/-- Chain predicate: `es` lists absolute 1-based elbow positions obtained
by repeatedly taking the first elbow of the suffix of `v` strictly after
the previous elbow (starting at offset `off`). -/
def ElbowChain (v : List ℚ) : ℕ → List ℕ → Prop
  | _, [] => True
  | off, a :: es =>
    ∃ e, firstElbow (v.drop off) = some e ∧ a = off + e ∧ ElbowChain v a es

/-- Modelled from the spec: log-density of a Gaussian with mean `μ` and
standard deviation `σ` at `x`. -/
noncomputable def gaussLogPdf (x μ σ : ℝ) : ℝ :=
  -Real.log (σ * Real.sqrt (2 * Real.pi)) - (x - μ) ^ 2 / (2 * σ ^ 2)

/-- Modelled from the spec: log-likelihood of a group of values under a
Gaussian with mean `μ` and standard deviation `σ`. -/
noncomputable def groupLogLik (g : List ℚ) (μ σ : ℝ) : ℝ :=
  (g.map (fun x : ℚ => gaussLogPdf (x : ℝ) μ σ)).sum

/-- Modelled from the spec: maximum-likelihood estimate of the standard
deviation shared by the two groups of the split at `i` (pooled residual
sum of squares over the total count). -/
noncomputable def pooledSigma (xs : List ℚ) (i : ℕ) : ℝ :=
  Real.sqrt ((splitRSS xs i : ℝ) / xs.length)

/-- Modelled from the spec: the two-group Gaussian profile log-likelihood
of the split at `i` — each group scored under a Gaussian at its own
maximum-likelihood mean, with the shared maximum-likelihood standard
deviation.  A split fitting both groups exactly (zero pooled residual)
degenerates to a point mass; its likelihood is `⊤`, above every
nondegenerate value. -/
noncomputable def profileLogLik (xs : List ℚ) (i : ℕ) : WithTop ℝ :=
  if splitRSS xs i = 0 then ⊤
  else
    ((groupLogLik (xs.take i) ((mean (xs.take i) : ℚ) : ℝ) (pooledSigma xs i) +
      groupLogLik (xs.drop i) ((mean (xs.drop i) : ℚ) : ℝ) (pooledSigma xs i) : ℝ) :
      WithTop ℝ)

/-- Closed form of the profile log-likelihood of a nondegenerate split, as
a function of the total count `n` and the pooled residual sum of squares
`R`: plugging the maximum-likelihood estimates into the Gaussian
log-likelihood collapses it to `-n·log(√(R/n)·√(2π)) − n/2`. -/
noncomputable def closedForm (n : ℕ) (R : ℝ) : ℝ :=
  -(n : ℝ) * Real.log (Real.sqrt (R / n) * Real.sqrt (2 * Real.pi)) - n / 2

/-! Embedding of notebook cell-27 (the unequal between-probabilities
debugging cell) and cell-8 (the block probability matrix extension loop).
NumPy arrays are embedded as lists (row-major); per NumPy semantics,
`__getitem__` with a boolean mask is *advanced indexing* and returns a
fresh copy of the selected elements, while slice `__setitem__` mutates the
array it is called on. -/

/-- Embeds `np.identity(n)` as a list of rows. -/
def npIdentity (n : ℕ) : List (List ℚ) :=
  (List.range n).map (fun i => (List.range n).map (fun j => if i = j then 1 else 0))

/-- Embeds `np.linspace(a, b, num)` (`num ≥ 2` endpoints included). -/
def linspace (a b : ℚ) (num : ℕ) : List ℚ :=
  (List.range num).map (fun i => a + (b - a) * i / (num - 1))

/-- Embeds `P[P == c]`: boolean-mask advanced indexing on a 2-D array,
which flattens row-major and returns a fresh copy of the selected
elements. -/
def boolGetEq (P : List (List ℚ)) (c : ℚ) : List ℚ :=
  P.flatten.filter (fun x => decide (x = c))

/-- Embeds slice assignment `a[lo:hi] = v` (in-range slice of matching
length): the result of mutating the array `a` in place. -/
def setSlice (a : List ℚ) (lo hi : ℕ) (v : List ℚ) : List ℚ :=
  a.take lo ++ v.take (hi - lo) ++ a.drop hi

/-- Embeds one iteration of the loop body of notebook cell-27 up to the
point where `P` is passed to `sbm`: `P = np.identity(10)`, then
`P[P==0][:45] = btwn` and `P[P==0][45:] = np.flip(btwn)` with
`btwn = np.linspace(b/45, b, 45)`.  Each fancy-indexing statement calls
`__getitem__` with the boolean mask `P == 0` — producing a temporary copy —
and then mutates that temporary with slice `__setitem__`; the temporaries
are never written back to `P`. -/
def cell27_P (b : ℚ) : List (List ℚ) :=
  let btwn := linspace (b / 45) b 45
  let P := npIdentity 10
  let _ := setSlice (boolGetEq P 0) 0 45 btwn
  let _ := setSlice (boolGetEq P 0) 45 90 btwn.reverse
  P

/-- Embeds `within_block = 0.7` of notebook cell-8. -/
def within_block : ℚ := 7 / 10

/-- Embeds `btwn_block = 0.1` of notebook cell-8. -/
def btwn_block : ℚ := 1 / 10

/-- Embeds one iteration of the `P`-extension in notebook cell-8:
`concat1 = np.array([[btwn_block]*P.shape[0]])`,
`concat2 = np.array([[btwn_block]]*P.shape[1]+[[within_block]])`,
`P = np.concatenate((P, concat1), 0)`, `P = np.concatenate((P, concat2), 1)`
(append a row of between-block probabilities, then append one column entry
to every row: between-block for the old rows, within-block at the new
corner). -/
def extendP (P : List (List ℚ)) : List (List ℚ) :=
  let concat1 := [List.replicate P.length btwn_block]
  let concat2 := List.replicate (P.headD []).length [btwn_block] ++ [[within_block]]
  let P1 := P ++ concat1
  (P1.zip concat2).map (fun rc => rc.1 ++ rc.2)

/-- Embeds the initial 2×2 block probability matrix of notebook cell-8. -/
def P0 : List (List ℚ) :=
  [[within_block, btwn_block], [btwn_block, within_block]]

/-- The `m × m` block probability matrix with `within_block` on the
diagonal and `btwn_block` off it (the shape cell-8 intends to maintain). -/
def mkBlock (m : ℕ) : List (List ℚ) :=
  (List.range m).map
    (fun i => (List.range m).map (fun j => if i = j then within_block else btwn_block))

/-- Entry `(i, j)` of a matrix embedded as a list of rows (junk `0` out of
range). -/
def entry (P : List (List ℚ)) (i j : ℕ) : ℚ := (P.getD i []).getD j 0

/-- Invariant maintained by the cell-8 extension loop: `P` is an `m × m`
matrix with `within_block` on the diagonal and `btwn_block` everywhere
else. -/
def blockProp (P : List (List ℚ)) (m : ℕ) : Prop :=
  P.length = m ∧ (∀ row ∈ P, row.length = m) ∧
    ∀ i j, i < m → j < m → entry P i j = if i = j then within_block else btwn_block

end ElbowSel

namespace ElbowSel

theorem pickMin_cons (f : ℕ → ℚ) (i j : ℕ) (is : List ℕ) :
    pickMin f i (j :: is) = pickMin f (if f j < f i then j else i) is := rfl

theorem pickMin_mem (f : ℕ → ℚ) :
    ∀ (is : List ℕ) (i : ℕ), pickMin f i is ∈ i :: is := by
  intro is
  induction is with
  | nil => intro i; simp [pickMin]
  | cons j is ih =>
    intro i
    rw [pickMin_cons]
    rcases List.mem_cons.1 (ih (if f j < f i then j else i)) with h1 | h1
    · rw [h1]
      split <;> simp
    · simp [h1]

theorem pickMin_le (f : ℕ → ℚ) :
    ∀ (is : List ℕ) (i : ℕ), ∀ j ∈ i :: is, f (pickMin f i is) ≤ f j := by
  intro is
  induction is with
  | nil =>
    intro i j hj
    simp only [List.mem_singleton] at hj
    subst hj
    simp [pickMin]
  | cons a is ih =>
    intro i j hj
    rw [pickMin_cons]
    have hmin : f (pickMin f (if f a < f i then a else i) is) ≤
        f (if f a < f i then a else i) :=
      ih _ _ (List.mem_cons_self _ _)
    rcases List.mem_cons.1 hj with rfl | hj'
    · refine hmin.trans ?_
      split
      · exact le_of_lt (by assumption)
      · exact le_refl _
    · rcases List.mem_cons.1 hj' with rfl | hj''
      · refine hmin.trans ?_
        split
        · exact le_refl _
        · exact le_of_not_lt (by assumption)
      · exact ih _ _ (List.mem_cons_of_mem _ hj'')

theorem pickMin_first (f : ℕ → ℚ) :
    ∀ (is : List ℕ) (i : ℕ), (i :: is).Pairwise (· < ·) →
      ∀ j ∈ i :: is, f j ≤ f (pickMin f i is) → pickMin f i is ≤ j := by
  intro is
  induction is with
  | nil =>
    intro i _ j hj _
    simp only [List.mem_singleton] at hj
    subst hj
    simp [pickMin]
  | cons a is ih =>
    intro i hpw j hj hfj
    rw [List.pairwise_cons] at hpw
    obtain ⟨hi_lt, hpwa⟩ := hpw
    have hpw' := hpwa
    rw [List.pairwise_cons] at hpw'
    obtain ⟨ha_lt, hpw''⟩ := hpw'
    have hia : i < a := hi_lt a (List.mem_cons_self _ _)
    rw [pickMin_cons] at hfj ⊢
    by_cases hcase : f a < f i
    · rw [if_pos hcase] at hfj ⊢
      have hmin : f (pickMin f a is) ≤ f a := pickMin_le f is a a (List.mem_cons_self _ _)
      rcases List.mem_cons.1 hj with rfl | hj'
      · exact absurd (hfj.trans hmin) (not_le.mpr hcase)
      · rcases List.mem_cons.1 hj' with rfl | hj''
        · exact ih _ hpwa _ (List.mem_cons_self _ _) hfj
        · exact ih a hpwa j (List.mem_cons_of_mem _ hj'') hfj
    · rw [if_neg hcase] at hfj ⊢
      have hpw2 : (i :: is).Pairwise (· < ·) := by
        rw [List.pairwise_cons]
        exact ⟨fun b hb => hi_lt b (List.mem_cons_of_mem _ hb), hpw''⟩
      rcases List.mem_cons.1 hj with rfl | hj'
      · exact ih _ hpw2 _ (List.mem_cons_self _ _) hfj
      · rcases List.mem_cons.1 hj' with rfl | hj''
        · have hfi : f i ≤ f (pickMin f i is) := le_trans (le_of_not_lt hcase) hfj
          exact le_of_lt (lt_of_le_of_lt (ih i hpw2 i (List.mem_cons_self _ _) hfi) hia)
        · exact ih i hpw2 j (List.mem_cons_of_mem _ hj'') hfj

end ElbowSel

namespace ElbowSel

theorem candidates_pairwise (xs : List ℚ) : (candidates xs).Pairwise (· < ·) :=
  List.pairwise_lt_range' _ _

theorem mem_candidates (xs : List ℚ) (j : ℕ) :
    j ∈ candidates xs ↔ 1 ≤ j ∧ j < xs.length := by
  unfold candidates
  rw [List.mem_range'_1]
  omega

theorem firstElbow_eq_none_iff (xs : List ℚ) :
    firstElbow xs = none ↔ xs.length < 2 := by
  unfold firstElbow
  cases hc : candidates xs with
  | nil =>
    simp only []
    constructor
    · intro _
      by_contra hlen
      have : (1 : ℕ) ∈ candidates xs := (mem_candidates xs 1).2 (by omega)
      rw [hc] at this
      exact absurd this (List.not_mem_nil _)
    · intro _; trivial
  | cons i is =>
    simp only []
    constructor
    · intro h; exact absurd h (by simp)
    · intro hlen
      have : i ∈ candidates xs := hc ▸ List.mem_cons_self _ _
      rw [mem_candidates] at this
      omega

theorem firstElbow_spec (xs : List ℚ) (e : ℕ) (h : firstElbow xs = some e) :
    (1 ≤ e ∧ e < xs.length) ∧
      (∀ j, 1 ≤ j → j < xs.length → splitRSS xs e ≤ splitRSS xs j) ∧
      (∀ j, 1 ≤ j → j < xs.length → splitRSS xs j ≤ splitRSS xs e → e ≤ j) := by
  unfold firstElbow at h
  cases hc : candidates xs with
  | nil => rw [hc] at h; exact absurd h (by simp)
  | cons i is =>
    rw [hc] at h
    simp only [Option.some.injEq] at h
    subst h
    have hpw : (i :: is).Pairwise (· < ·) := hc ▸ candidates_pairwise xs
    have hmem : pickMin (splitRSS xs) i is ∈ candidates xs := hc ▸ pickMin_mem _ _ _
    refine ⟨(mem_candidates xs _).1 hmem, ?_, ?_⟩
    · intro j h1 h2
      exact pickMin_le _ is i j (hc ▸ (mem_candidates xs j).2 ⟨h1, h2⟩)
    · intro j h1 h2 hle
      exact pickMin_first _ is i hpw j (hc ▸ (mem_candidates xs j).2 ⟨h1, h2⟩) hle

theorem firstElbow_isSome (xs : List ℚ) (h : 2 ≤ xs.length) :
    ∃ e, firstElbow xs = some e := by
  cases he : firstElbow xs with
  | none => rw [firstElbow_eq_none_iff] at he; omega
  | some e => exact ⟨e, rfl⟩

end ElbowSel

namespace ElbowSel

theorem elbowsAux_zero (xs : List ℚ) (off : ℕ) : elbowsAux 0 xs off = .ok [] := rfl

theorem elbowsAux_succ (n : ℕ) (xs : List ℚ) (off : ℕ) :
    elbowsAux (n + 1) xs off =
      match firstElbow xs with
      | none => .error .unsatisfiable
      | some e => (elbowsAux n (xs.drop e) (off + e)).map (fun es => (off + e) :: es) :=
  rfl

theorem map_eq_ok_iff {ε α β : Type} (f : α → β) (x : Except ε α) (b : β) :
    x.map f = .ok b ↔ ∃ a, x = .ok a ∧ b = f a := by
  cases x <;> simp [Except.map, eq_comm]

theorem map_eq_error_iff {ε α β : Type} (f : α → β) (x : Except ε α) (err : ε) :
    x.map f = .error err ↔ x = .error err := by
  cases x <;> simp [Except.map]

theorem elbowsAux_error (n : ℕ) :
    ∀ (xs : List ℚ) (off : ℕ) (err : SelErr),
      elbowsAux n xs off = .error err → err = .unsatisfiable := by
  induction n with
  | zero => intro xs off err h; exact absurd h (by simp [elbowsAux_zero])
  | succ n ih =>
    intro xs off err h
    rw [elbowsAux_succ] at h
    cases he : firstElbow xs with
    | none => rw [he] at h; simpa using h.symm
    | some e =>
      rw [he] at h
      simp only [] at h
      rw [map_eq_error_iff] at h
      exact ih _ _ _ h

theorem elbowsAux_length (n : ℕ) :
    ∀ (xs : List ℚ) (off : ℕ) (es : List ℕ),
      elbowsAux n xs off = .ok es → es.length = n := by
  induction n with
  | zero =>
    intro xs off es h
    rw [elbowsAux_zero] at h
    simp only [Except.ok.injEq] at h
    subst h; rfl
  | succ n ih =>
    intro xs off es h
    rw [elbowsAux_succ] at h
    cases he : firstElbow xs with
    | none => rw [he] at h; exact absurd h (by simp)
    | some e =>
      rw [he] at h
      simp only [] at h
      rw [map_eq_ok_iff] at h
      obtain ⟨es', h1, h2⟩ := h
      subst h2
      simp [ih _ _ _ h1]

theorem elbowsAux_chain (v : List ℚ) (n : ℕ) :
    ∀ (off : ℕ) (es : List ℕ),
      elbowsAux n (v.drop off) off = .ok es → ElbowChain v off es := by
  induction n with
  | zero =>
    intro off es h
    rw [elbowsAux_zero] at h
    simp only [Except.ok.injEq] at h
    subst h; trivial
  | succ n ih =>
    intro off es h
    rw [elbowsAux_succ] at h
    cases he : firstElbow (v.drop off) with
    | none => rw [he] at h; exact absurd h (by simp)
    | some e =>
      rw [he] at h
      simp only [] at h
      rw [map_eq_ok_iff] at h
      obtain ⟨es', h1, h2⟩ := h
      subst h2
      rw [List.drop_drop] at h1
      exact ⟨e, he, rfl, ih (off + e) es' h1⟩

theorem elbowsAux_bounds (v : List ℚ) (n : ℕ) :
    ∀ (off : ℕ) (es : List ℕ),
      elbowsAux n (v.drop off) off = .ok es →
        (∀ a ∈ es, off < a ∧ a < v.length) ∧ es.Pairwise (· < ·) := by
  induction n with
  | zero =>
    intro off es h
    rw [elbowsAux_zero] at h
    simp only [Except.ok.injEq] at h
    subst h
    simp
  | succ n ih =>
    intro off es h
    rw [elbowsAux_succ] at h
    cases he : firstElbow (v.drop off) with
    | none => rw [he] at h; exact absurd h (by simp)
    | some e =>
      rw [he] at h
      simp only [] at h
      rw [map_eq_ok_iff] at h
      obtain ⟨es', h1, h2⟩ := h
      subst h2
      have hspec := (firstElbow_spec _ _ he).1
      have hdlen : (v.drop off).length = v.length - off := List.length_drop _ _
      rw [List.drop_drop] at h1
      obtain ⟨hb, hpw⟩ := ih (off + e) es' h1
      constructor
      · intro a ha
        rcases List.mem_cons.1 ha with rfl | ha'
        · omega
        · have := hb a ha'
          omega
      · rw [List.pairwise_cons]
        exact ⟨fun a ha => by have := hb a ha; omega, hpw⟩

theorem elbowsAux_take (v : List ℚ) (n : ℕ) :
    ∀ (m off : ℕ) (es : List ℕ), m ≤ n →
      elbowsAux n (v.drop off) off = .ok es →
        elbowsAux m (v.drop off) off = .ok (es.take m) := by
  induction n with
  | zero =>
    intro m off es hm h
    rw [elbowsAux_zero] at h
    simp only [Except.ok.injEq] at h
    subst h
    interval_cases m
    simp [elbowsAux_zero]
  | succ n ih =>
    intro m off es hm h
    rw [elbowsAux_succ] at h
    cases he : firstElbow (v.drop off) with
    | none => rw [he] at h; exact absurd h (by simp)
    | some e =>
      rw [he] at h
      simp only [] at h
      rw [map_eq_ok_iff] at h
      obtain ⟨es', h1, h2⟩ := h
      subst h2
      cases m with
      | zero => simp [elbowsAux_zero]
      | succ m =>
        rw [elbowsAux_succ, he]
        simp only []
        rw [List.drop_drop] at h1
        have hrec := ih m (off + e) es' (by omega) h1
        rw [map_eq_ok_iff]
        refine ⟨es'.take m, ?_, rfl⟩
        rw [List.drop_drop]
        exact hrec

theorem countElbows_none (xs : List ℚ) (h : firstElbow xs = none) :
    countElbows xs = 0 := by
  unfold countElbows
  cases hL : xs.length with
  | zero => rfl
  | succ m => simp [countElbowsAux, h]

theorem countElbowsAux_stable :
    ∀ (fuel₁ fuel₂ : ℕ) (xs : List ℚ), xs.length ≤ fuel₁ → xs.length ≤ fuel₂ →
      countElbowsAux fuel₁ xs = countElbowsAux fuel₂ xs := by
  intro fuel₁
  induction fuel₁ with
  | zero =>
    intro fuel₂ xs h1 _
    have hx : xs = [] := List.eq_nil_of_length_eq_zero (by omega)
    subst hx
    cases fuel₂ with
    | zero => rfl
    | succ m =>
      have : firstElbow ([] : List ℚ) = none := by
        rw [firstElbow_eq_none_iff]; simp
      simp [countElbowsAux, this]
  | succ f ih =>
    intro fuel₂ xs h1 h2
    cases he : firstElbow xs with
    | none =>
      cases fuel₂ with
      | zero =>
        have hx : xs = [] := List.eq_nil_of_length_eq_zero (by omega)
        subst hx
        simp [countElbowsAux, he]
      | succ m => simp [countElbowsAux, he]
    | some e =>
      have hspec := (firstElbow_spec _ _ he).1
      cases fuel₂ with
      | zero => omega
      | succ m =>
        simp only [countElbowsAux, he]
        have hdrop : (xs.drop e).length = xs.length - e := List.length_drop _ _
        rw [ih m (xs.drop e) (by omega) (by omega)]

theorem countElbows_succ (xs : List ℚ) (e : ℕ) (h : firstElbow xs = some e) :
    countElbows xs = 1 + countElbows (xs.drop e) := by
  have hspec := (firstElbow_spec _ _ h).1
  unfold countElbows
  cases hL : xs.length with
  | zero => omega
  | succ m =>
    simp only [countElbowsAux, h]
    have hdrop : (xs.drop e).length = xs.length - e := List.length_drop _ _
    rw [countElbowsAux_stable m (xs.drop e).length (xs.drop e) (by omega) (le_refl _)]

theorem elbowsAux_ok_iff (v : List ℚ) (n : ℕ) :
    ∀ (off : ℕ), (∃ es, elbowsAux n (v.drop off) off = .ok es) ↔
      n ≤ countElbows (v.drop off) := by
  induction n with
  | zero => intro off; simp [elbowsAux_zero]
  | succ n ih =>
    intro off
    cases he : firstElbow (v.drop off) with
    | none =>
      rw [countElbows_none _ he]
      simp only [elbowsAux_succ, he]
      constructor
      · intro ⟨es, hes⟩; exact absurd hes (by simp)
      · intro h; omega
    | some e =>
      rw [countElbows_succ _ _ he]
      simp only [elbowsAux_succ, he]
      constructor
      · intro ⟨es, hes⟩
        rw [map_eq_ok_iff] at hes
        obtain ⟨es', h1, _⟩ := hes
        rw [List.drop_drop] at h1
        have := (ih (off + e)).1 ⟨es', h1⟩
        rw [List.drop_drop]
        omega
      · intro hn
        rw [List.drop_drop] at hn
        obtain ⟨es', hes'⟩ := (ih (off + e)).2 (by omega)
        refine ⟨(off + e) :: es', ?_⟩
        rw [map_eq_ok_iff]
        refine ⟨es', ?_, rfl⟩
        rw [List.drop_drop]
        exact hes'

end ElbowSel

namespace ElbowSel

theorem mean_replicate (k : ℕ) (c : ℚ) (hk : k ≠ 0) :
    mean (List.replicate k c) = c := by
  unfold mean
  rw [List.sum_replicate, List.length_replicate, nsmul_eq_mul]
  have : (k : ℚ) ≠ 0 := Nat.cast_ne_zero.2 hk
  field_simp

theorem rssOf_replicate (k : ℕ) (c : ℚ) : rssOf (List.replicate k c) = 0 := by
  cases k with
  | zero => simp [rssOf]
  | succ m =>
    unfold rssOf
    rw [mean_replicate _ _ (Nat.succ_ne_zero m), List.map_replicate]
    simp

theorem splitRSS_replicate (k i : ℕ) (c : ℚ) :
    splitRSS (List.replicate k c) i = 0 := by
  unfold splitRSS
  rw [List.take_replicate, List.drop_replicate, rssOf_replicate, rssOf_replicate]
  simp

theorem pickMin_const (f : ℕ → ℚ) :
    ∀ (is : List ℕ) (i : ℕ), (∀ j ∈ is, ¬ f j < f i) → pickMin f i is = i := by
  intro is
  induction is with
  | nil => intro i _; rfl
  | cons a is ih =>
    intro i h
    rw [pickMin_cons, if_neg (h a (List.mem_cons_self _ _))]
    exact ih i (fun j hj => h j (List.mem_cons_of_mem _ hj))

theorem firstElbow_replicate (k : ℕ) (c : ℚ) (hk : 2 ≤ k) :
    firstElbow (List.replicate k c) = some 1 := by
  have hcand : candidates (List.replicate k c) = 1 :: List.range' 2 (k - 2) := by
    unfold candidates
    rw [List.length_replicate]
    have h2 : k - 1 = (k - 2) + 1 := by omega
    rw [h2, List.range'_succ]
  unfold firstElbow
  rw [hcand]
  simp only [Option.some.injEq]
  apply pickMin_const
  intro j _
  rw [splitRSS_replicate, splitRSS_replicate]
  exact lt_irrefl 0

theorem getLastD_mem (es : List ℕ) (h : es ≠ []) : es.getLastD 0 ∈ es := by
  rw [List.getLastD_eq_getLast?, List.getLast?_eq_getLast_of_ne_nil h]
  exact List.getLast_mem h

theorem select_ok_elim (v : List ℚ) (n : ℕ) (r : SelectionResult)
    (h : select_dimension v n = .ok r) :
    validInput v n ∧ elbowsAux n v 0 = .ok r.elbows ∧
      r.dimension = r.elbows.getLastD 0 := by
  unfold select_dimension at h
  by_cases hv : validInput v n
  · rw [if_pos hv] at h
    cases hE : elbowsAux n v 0 with
    | error err => rw [hE] at h; exact absurd h (by simp)
    | ok es =>
      rw [hE] at h
      simp only [Except.ok.injEq] at h
      subst h
      exact ⟨hv, rfl, rfl⟩
  · rw [if_neg hv] at h
    exact absurd h (by simp)

theorem select_dimension_eq_ok_iff (v : List ℚ) (n : ℕ) :
    (∃ r, select_dimension v n = .ok r) ↔ validInput v n ∧ n ≤ countElbows v := by
  have hiff := elbowsAux_ok_iff v n 0
  rw [List.drop_zero] at hiff
  constructor
  · intro ⟨r, hr⟩
    obtain ⟨hv, hE, _⟩ := select_ok_elim v n r hr
    exact ⟨hv, hiff.1 ⟨r.elbows, hE⟩⟩
  · intro ⟨hv, hn⟩
    obtain ⟨es, hes⟩ := hiff.2 hn
    refine ⟨⟨es, es.getLastD 0⟩, ?_⟩
    unfold select_dimension
    rw [if_pos hv, hes]

theorem select_dimension_invalid_iff (v : List ℚ) (n : ℕ) :
    select_dimension v n = .error .invalidInput ↔ ¬ validInput v n := by
  unfold select_dimension
  by_cases hv : validInput v n
  · rw [if_pos hv]
    simp only [hv, not_true_eq_false, iff_false]
    cases hE : elbowsAux n v 0 with
    | error err =>
      have := elbowsAux_error n v 0 err hE
      subst this
      simp
    | ok es => simp
  · rw [if_neg hv]
    simp [hv]

theorem select_dimension_unsat_iff (v : List ℚ) (n : ℕ) :
    select_dimension v n = .error .unsatisfiable ↔
      validInput v n ∧ countElbows v < n := by
  have hiff := elbowsAux_ok_iff v n 0
  rw [List.drop_zero] at hiff
  unfold select_dimension
  by_cases hv : validInput v n
  · rw [if_pos hv]
    cases hE : elbowsAux n v 0 with
    | error err =>
      have herr := elbowsAux_error n v 0 err hE
      subst herr
      simp only [hv, true_and]
      constructor
      · intro _
        by_contra hc
        obtain ⟨es, hes⟩ := hiff.2 (by omega)
        rw [hes] at hE
        exact absurd hE (by simp)
      · intro _; trivial
    | ok es =>
      simp only [hv, true_and]
      constructor
      · intro hcontra
        exact absurd hcontra (by simp)
      · intro hlt
        exact absurd hlt (not_lt.2 (hiff.1 ⟨es, hE⟩))
  · rw [if_neg hv]
    simp [hv]

end ElbowSel

namespace ElbowSel

theorem select_ok_chain (v : List ℚ) (n : ℕ) (r : SelectionResult)
    (h : select_dimension v n = .ok r) : ElbowChain v 0 r.elbows := by
  have hE := (select_ok_elim v n r h).2.1
  apply elbowsAux_chain v n 0
  rw [List.drop_zero]
  exact hE

theorem select_ok_bounds (v : List ℚ) (n : ℕ) (r : SelectionResult)
    (h : select_dimension v n = .ok r) :
    (∀ a ∈ r.elbows, 0 < a ∧ a < v.length) ∧ r.elbows.Pairwise (· < ·) := by
  have hE := (select_ok_elim v n r h).2.1
  have := elbowsAux_bounds v n 0 r.elbows (by rw [List.drop_zero]; exact hE)
  exact this

theorem select_ok_length (v : List ℚ) (n : ℕ) (r : SelectionResult)
    (h : select_dimension v n = .ok r) : r.elbows.length = n :=
  elbowsAux_length n v 0 r.elbows (select_ok_elim v n r h).2.1

theorem select_ok_head (v : List ℚ) (n : ℕ) (r : SelectionResult)
    (h : select_dimension v n = .ok r) (hn : 1 ≤ n) :
    ∃ e, firstElbow v = some e ∧ r.elbows.head? = some e := by
  have hE := (select_ok_elim v n r h).2.1
  cases n with
  | zero => omega
  | succ m =>
    rw [elbowsAux_succ] at hE
    cases he : firstElbow v with
    | none => rw [he] at hE; exact absurd hE (by simp)
    | some e =>
      rw [he] at hE
      simp only [] at hE
      rw [map_eq_ok_iff] at hE
      obtain ⟨es', _, h2⟩ := hE
      refine ⟨e, rfl, ?_⟩
      rw [h2]
      simp

theorem elbowChain_consecutive (v : List ℚ) :
    ∀ (es : List ℕ) (off : ℕ), ElbowChain v off es →
      ∀ (j a b : ℕ), es[j]? = some a → es[j + 1]? = some b →
        ∃ e, firstElbow (v.drop a) = some e ∧ b = a + e := by
  intro es
  induction es with
  | nil => intro off _ j a b ha _; simp at ha
  | cons x es ih =>
    intro off hch j a b ha hb
    obtain ⟨e, he, hx, hch'⟩ := hch
    cases j with
    | zero =>
      simp only [List.getElem?_cons_zero, Option.some.injEq] at ha
      subst ha
      cases es with
      | nil => simp at hb
      | cons y es' =>
        obtain ⟨e', he', hy, _⟩ := hch'
        simp only [List.getElem?_cons_succ, List.getElem?_cons_zero,
          Option.some.injEq] at hb
        subst hb
        exact ⟨e', he', hy⟩
    | succ j =>
      exact ih x hch' j a b (by simpa using ha) (by simpa using hb)

end ElbowSel

namespace ElbowSel

theorem rssOf_nonneg (xs : List ℚ) : 0 ≤ rssOf xs := by
  apply List.sum_nonneg
  intro x hx
  obtain ⟨y, _, rfl⟩ := List.mem_map.1 hx
  positivity

theorem splitRSS_nonneg (xs : List ℚ) (i : ℕ) : 0 ≤ splitRSS xs i :=
  add_nonneg (rssOf_nonneg _) (rssOf_nonneg _)

theorem groupLogLik_eq (g : List ℚ) (μ σ : ℝ) :
    groupLogLik g μ σ =
      -(g.length : ℝ) * Real.log (σ * Real.sqrt (2 * Real.pi)) -
        (g.map (fun x : ℚ => ((x : ℝ) - μ) ^ 2)).sum / (2 * σ ^ 2) := by
  induction g with
  | nil => simp [groupLogLik]
  | cons a g ih =>
    simp only [groupLogLik, List.map_cons, List.sum_cons] at ih ⊢
    rw [ih, gaussLogPdf, List.length_cons]
    push_cast
    ring

theorem cast_sum_sq (μ : ℚ) :
    ∀ (l : List ℚ),
      (((l.map (fun x => (x - μ) ^ 2)).sum : ℚ) : ℝ) =
        (l.map (fun x : ℚ => ((x : ℝ) - (μ : ℝ)) ^ 2)).sum := by
  intro l
  induction l with
  | nil => simp
  | cons a l ih =>
    simp only [List.map_cons, List.sum_cons]
    rw [Rat.cast_add, ih]
    push_cast
    ring

theorem profileLogLik_eq (xs : List ℚ) (i : ℕ) (h1 : 1 ≤ xs.length)
    (h : splitRSS xs i ≠ 0) :
    profileLogLik xs i =
      ((closedForm xs.length ((splitRSS xs i : ℚ) : ℝ) : ℝ) : WithTop ℝ) := by
  unfold profileLogLik
  rw [if_neg h]
  congr 1
  rw [groupLogLik_eq, groupLogLik_eq]
  unfold closedForm pooledSigma
  have hR0 : (0 : ℝ) < ((splitRSS xs i : ℚ) : ℝ) := by
    exact_mod_cast lt_of_le_of_ne (splitRSS_nonneg xs i) (Ne.symm h)
  have hn0 : (0 : ℝ) < (xs.length : ℝ) := by
    exact_mod_cast Nat.lt_of_lt_of_le Nat.zero_lt_one h1
  set R : ℝ := ((splitRSS xs i : ℚ) : ℝ) with hRdef
  set C : ℝ := Real.log (Real.sqrt (R / (xs.length : ℝ)) * Real.sqrt (2 * Real.pi))
    with hCdef
  have hσ : Real.sqrt (R / (xs.length : ℝ)) ^ 2 = R / (xs.length : ℝ) :=
    Real.sq_sqrt (by positivity)
  set S1 : ℝ := ((xs.take i).map
    (fun x : ℚ => ((x : ℝ) - ((mean (xs.take i) : ℚ) : ℝ)) ^ 2)).sum with hS1def
  set S2 : ℝ := ((xs.drop i).map
    (fun x : ℚ => ((x : ℝ) - ((mean (xs.drop i) : ℚ) : ℝ)) ^ 2)).sum with hS2def
  have hS : S1 + S2 = R := by
    rw [hS1def, hS2def, hRdef, ← cast_sum_sq, ← cast_sum_sq]
    unfold splitRSS rssOf
    push_cast
    ring
  have hlen : ((xs.take i).length : ℝ) + ((xs.drop i).length : ℝ) = (xs.length : ℝ) := by
    have h' : (xs.take i ++ xs.drop i).length = xs.length := by
      rw [List.take_append_drop]
    rw [List.length_append] at h'
    exact_mod_cast h'
  rw [hσ]
  have h2 : S1 / (2 * (R / (xs.length : ℝ))) + S2 / (2 * (R / (xs.length : ℝ))) =
      (xs.length : ℝ) / 2 := by
    rw [div_add_div_same, hS]
    field_simp
    ring
  linear_combination (-C) * hlen - h2

theorem closedForm_lt (n : ℕ) (hn : 1 ≤ n) (a b : ℝ) (ha : 0 < a) (hab : a < b) :
    closedForm n b < closedForm n a := by
  unfold closedForm
  have hb : 0 < b := lt_trans ha hab
  have hn' : (0 : ℝ) < (n : ℝ) := by exact_mod_cast Nat.lt_of_lt_of_le Nat.zero_lt_one hn
  have h1 : Real.sqrt (a / n) < Real.sqrt (b / n) :=
    Real.sqrt_lt_sqrt (by positivity) ((div_lt_div_iff_of_pos_right hn').2 hab)
  have hpos : (0 : ℝ) < Real.sqrt (a / n) * Real.sqrt (2 * Real.pi) := by
    have := Real.sqrt_pos.2 (show (0:ℝ) < a / n by positivity)
    have := Real.sqrt_pos.2 (show (0:ℝ) < 2 * Real.pi by positivity)
    positivity
  have h3 : Real.log (Real.sqrt (a / n) * Real.sqrt (2 * Real.pi)) <
      Real.log (Real.sqrt (b / n) * Real.sqrt (2 * Real.pi)) :=
    Real.log_lt_log hpos
      (mul_lt_mul_of_pos_right h1 (Real.sqrt_pos.2 (by positivity)))
  nlinarith [h3, hn']

theorem profileLogLik_le_iff (xs : List ℚ) (h1 : 1 ≤ xs.length) (i j : ℕ) :
    profileLogLik xs i ≤ profileLogLik xs j ↔ splitRSS xs j ≤ splitRSS xs i := by
  by_cases hi : splitRSS xs i = 0 <;> by_cases hj : splitRSS xs j = 0
  · unfold profileLogLik
    rw [if_pos hi, if_pos hj, hi, hj]
    simp
  · unfold profileLogLik
    rw [if_pos hi, if_neg hj]
    constructor
    · intro h
      exact absurd (top_le_iff.1 h) (WithTop.coe_ne_top)
    · intro h
      exact absurd (le_antisymm (hi ▸ h) (splitRSS_nonneg xs j)) hj
  · unfold profileLogLik
    rw [if_neg hi, if_pos hj]
    simp only [le_top, true_iff]
    exact hj ▸ splitRSS_nonneg xs i
  · rw [profileLogLik_eq xs i h1 hi, profileLogLik_eq xs j h1 hj, WithTop.coe_le_coe]
    have hpi : (0 : ℝ) < ((splitRSS xs i : ℚ) : ℝ) := by
      exact_mod_cast lt_of_le_of_ne (splitRSS_nonneg xs i) (Ne.symm hi)
    have hpj : (0 : ℝ) < ((splitRSS xs j : ℚ) : ℝ) := by
      exact_mod_cast lt_of_le_of_ne (splitRSS_nonneg xs j) (Ne.symm hj)
    constructor
    · intro h
      by_contra hc
      push_neg at hc
      have hcR : ((splitRSS xs i : ℚ) : ℝ) < ((splitRSS xs j : ℚ) : ℝ) := by
        exact_mod_cast hc
      exact absurd h (not_le.2 (closedForm_lt xs.length h1 _ _ hpi hcR))
    · intro h
      rcases lt_or_eq_of_le h with hlt | heq
      · exact le_of_lt (closedForm_lt xs.length h1 _ _ hpj (by exact_mod_cast hlt))
      · rw [show ((splitRSS xs j : ℚ) : ℝ) = ((splitRSS xs i : ℚ) : ℝ) by
          exact_mod_cast congrArg Rat.cast heq]

end ElbowSel

namespace ElbowSel

theorem blockProp_P0 : blockProp P0 2 := by
  refine ⟨rfl, ?_, ?_⟩
  · intro row hrow
    simp only [P0, List.mem_cons, List.not_mem_nil, or_false] at hrow
    rcases hrow with rfl | rfl <;> rfl
  · intro i j hi hj
    interval_cases i <;> interval_cases j <;> simp [entry, P0]

theorem blockProp_extendP (P : List (List ℚ)) (m : ℕ) (hm : 1 ≤ m)
    (h : blockProp P m) : blockProp (extendP P) (m + 1) := by
  obtain ⟨hlen, hrows, hentry⟩ := h
  have hPne : P ≠ [] := by
    intro hc
    rw [hc] at hlen
    simp at hlen
    omega
  have hhead : (P.headD []).length = m := by
    cases P with
    | nil => exact absurd rfl hPne
    | cons r t => exact hrows r (List.mem_cons_self _ _)
  have hres : extendP P =
      ((P ++ [List.replicate m btwn_block]).zip
        (List.replicate m [btwn_block] ++ [[within_block]])).map
          (fun rc => rc.1 ++ rc.2) := by
    unfold extendP
    rw [hlen, hhead]
  have hL1len : (P ++ [List.replicate m btwn_block]).length = m + 1 := by
    simp [hlen]
  have hL2len : (List.replicate m [btwn_block] ++ [[within_block]]).length = m + 1 := by
    simp
  have hreslen : (extendP P).length = m + 1 := by
    rw [hres, List.length_map, List.length_zip, hL1len, hL2len]
    simp
  refine ⟨hreslen, ?_, ?_⟩
  · intro row hrow
    rw [hres] at hrow
    obtain ⟨⟨r1, r2⟩, hmem, rfl⟩ := List.mem_map.1 hrow
    obtain ⟨h1, h2⟩ := List.of_mem_zip hmem
    rw [List.length_append]
    have hr1 : r1.length = m := by
      rcases List.mem_append.1 h1 with hP | hrep
      · exact hrows r1 hP
      · simp only [List.mem_singleton] at hrep
        rw [hrep, List.length_replicate]
    have hr2 : r2.length = 1 := by
      rcases List.mem_append.1 h2 with hrep | hw
      · rw [List.eq_of_mem_replicate hrep]
        rfl
      · simp only [List.mem_singleton] at hw
        rw [hw]
        rfl
    show r1.length + r2.length = m + 1
    omega
  · intro i j hi hj
    have hrow : (extendP P).getD i [] =
        (P ++ [List.replicate m btwn_block]).getD i [] ++
          (List.replicate m [btwn_block] ++ [[within_block]]).getD i [] := by
      rw [hres, List.getD_eq_getElem _ _ (by
        rw [← hres, hreslen]; omega)]
      rw [List.getElem_map, List.getElem_zip]
      rw [List.getD_eq_getElem _ _ (by rw [hL1len]; omega),
        List.getD_eq_getElem _ _ (by rw [hL2len]; omega)]
    unfold entry
    rw [hrow]
    rcases Nat.lt_or_ge i m with him | him
    · have hA : (P ++ [List.replicate m btwn_block]).getD i [] = P.getD i [] :=
        List.getD_append _ _ _ _ (by rw [hlen]; omega)
      have hB : (List.replicate m [btwn_block] ++ [[within_block]]).getD i [] =
          [btwn_block] := by
        rw [List.getD_append _ _ _ _ (by rw [List.length_replicate]; omega)]
        rw [List.getD_eq_getElem _ _ (by rw [List.length_replicate]; omega),
          List.getElem_replicate]
      rw [hA, hB]
      have hPi : (P.getD i []).length = m := by
        rw [List.getD_eq_getElem _ _ (by rw [hlen]; omega)]
        exact hrows _ (List.getElem_mem _)
      rcases Nat.lt_or_ge j m with hjm | hjm
      · rw [List.getD_append _ _ _ _ (by rw [hPi]; omega)]
        exact hentry i j him hjm
      · have hjeq : j = m := by omega
        rw [hjeq, List.getD_append_right _ _ _ _ (by rw [hPi]), hPi]
        simp only [Nat.sub_self, List.getD_cons_zero]
        rw [if_neg (by omega)]
    · have hieq : i = m := by omega
      rw [hieq]
      have hA : (P ++ [List.replicate m btwn_block]).getD m [] =
          List.replicate m btwn_block := by
        rw [List.getD_append_right _ _ _ _ (by rw [hlen])]
        rw [hlen]
        simp only [Nat.sub_self, List.getD_cons_zero]
      have hB : (List.replicate m [btwn_block] ++ [[within_block]]).getD m [] =
          [within_block] := by
        rw [List.getD_append_right _ _ _ _ (by rw [List.length_replicate])]
        rw [List.length_replicate]
        simp only [Nat.sub_self, List.getD_cons_zero]
      rw [hA, hB]
      rcases Nat.lt_or_ge j m with hjm | hjm
      · rw [List.getD_append _ _ _ _ (by rw [List.length_replicate]; omega)]
        rw [List.getD_eq_getElem _ _ (by rw [List.length_replicate]; omega),
          List.getElem_replicate]
        rw [if_neg (by omega)]
      · have hjeq : j = m := by omega
        rw [hjeq, List.getD_append_right _ _ _ _ (by rw [List.length_replicate])]
        rw [List.length_replicate]
        simp only [Nat.sub_self, List.getD_cons_zero]
        simp

theorem blockProp_iterate (t : ℕ) : blockProp (extendP^[t] P0) (t + 2) := by
  induction t with
  | zero => exact blockProp_P0
  | succ t ih =>
    rw [Function.iterate_succ_apply']
    have h := blockProp_extendP (extendP^[t] P0) (t + 2) (by omega) ih
    have he : t + 2 + 1 = t + 1 + 2 := by omega
    rw [he] at h
    exact h

end ElbowSel

namespace ElbowSel

theorem npIdentity_entry (n i j : ℕ) (hi : i < n) (hj : j < n) :
    entry (npIdentity n) i j = if i = j then 1 else 0 := by
  have hrow : (npIdentity n).getD i [] =
      (List.range n).map (fun k => if i = k then 1 else 0) := by
    unfold npIdentity
    rw [List.getD_eq_getElem _ _ (by
      rw [List.length_map, List.length_range]; omega)]
    rw [List.getElem_map, List.getElem_range]
  unfold entry
  rw [hrow]
  rw [List.getD_eq_getElem _ _ (by
    rw [List.length_map, List.length_range]; omega)]
  rw [List.getElem_map, List.getElem_range]

theorem cell27_P_eq (b : ℚ) : cell27_P b = npIdentity 10 := rfl

theorem select_dimension_flat (k : ℕ) (c : ℚ) (hc : 0 ≤ c) (hk : 2 ≤ k) :
    select_dimension (List.replicate k c) 1 = .ok ⟨[1], 1⟩ := by
  have hfe := firstElbow_replicate k c hk
  have h2 : elbowsAux 1 (List.replicate k c) 0 =
      match firstElbow (List.replicate k c) with
      | none => .error .unsatisfiable
      | some e =>
        (elbowsAux 0 ((List.replicate k c).drop e) (0 + e)).map
          (fun es => (0 + e) :: es) := elbowsAux_succ 0 _ 0
  rw [hfe] at h2
  simp only [elbowsAux_zero, Except.map, Nat.zero_add] at h2
  unfold select_dimension
  rw [if_pos ⟨by simpa using hk,
      fun x hx => by rw [List.eq_of_mem_replicate hx]; exact hc, le_refl 1⟩]
  rw [h2]
  rfl

theorem eval_select_ten_one :
    select_dimension [10, 10, 1, 1, 1] 1 = .ok ⟨[2], 2⟩ := by
  norm_num [select_dimension, validInput, elbowsAux, firstElbow, candidates,
    pickMin, splitRSS, rssOf, mean, List.range', Except.map, List.getLast?]

theorem eval_select_ten_two :
    select_dimension [10, 10, 1, 1, 1] 2 = .ok ⟨[2, 3], 3⟩ := by
  norm_num [select_dimension, validInput, elbowsAux, firstElbow, candidates,
    pickMin, splitRSS, rssOf, mean, List.range', Except.map, List.getLast?]

theorem eval_select_flat_four :
    select_dimension [5, 5, 5, 5] 1 = .ok ⟨[1], 1⟩ := by
  have h : (List.replicate 4 (5 : ℚ)) = [5, 5, 5, 5] := rfl
  rw [← h]
  exact select_dimension_flat 4 5 (by norm_num) (by norm_num)

theorem eval_select_desc :
    select_dimension [4, 2, 1] 1 = .ok ⟨[1], 1⟩ := by
  norm_num [select_dimension, validInput, elbowsAux, firstElbow, candidates,
    pickMin, splitRSS, rssOf, mean, List.range', Except.map, List.getLast?]

end ElbowSel

namespace ElbowSel

/-- Claim C1: for every descending sequence of non-negative rationals of
length at least 2, the first elbow returned by `select_dimension` is the
candidate split point maximising the two-group Gaussian profile
likelihood, and when several split points attain the maximal likelihood
the smallest such index is returned. -/
theorem claim_C1 (xs : List ℚ) (hlen : 2 ≤ xs.length)
    (hdesc : xs.Sorted (· ≥ ·)) (hnn : ∀ x ∈ xs, 0 ≤ x) :
    ∃ e, firstElbow xs = some e ∧
      (∀ (n : ℕ) (r : SelectionResult), select_dimension xs n = .ok r →
        r.elbows.head? = some e) ∧
      1 ≤ e ∧ e ≤ xs.length - 1 ∧
      (∀ i, 1 ≤ i → i ≤ xs.length - 1 →
        profileLogLik xs i ≤ profileLogLik xs e) ∧
      (∀ i, 1 ≤ i → i ≤ xs.length - 1 →
        profileLogLik xs e ≤ profileLogLik xs i → e ≤ i) := by
  obtain ⟨e, he⟩ := firstElbow_isSome xs hlen
  obtain ⟨⟨he1, he2⟩, hmin, hfirst⟩ := firstElbow_spec xs e he
  refine ⟨e, he, ?_, he1, by omega, ?_, ?_⟩
  · intro n r hr
    have hn : 1 ≤ n := (select_ok_elim xs n r hr).1.2.2
    obtain ⟨e', he', hh⟩ := select_ok_head xs n r hr hn
    rw [he'] at he
    injection he with heq
    rw [← heq]
    exact hh
  · intro i hi1 hi2
    rw [profileLogLik_le_iff xs (by omega) i e]
    exact hmin i hi1 (by omega)
  · intro i hi1 hi2 hle
    rw [profileLogLik_le_iff xs (by omega) e i] at hle
    exact hfirst i hi1 (by omega) hle

/-- Witness for C1 at the concrete descending input `[4, 2, 1]`. -/
theorem claim_C1_witness :
    (2 ≤ ([4, 2, 1] : List ℚ).length ∧
      ([4, 2, 1] : List ℚ).Sorted (· ≥ ·) ∧
      ∀ x ∈ ([4, 2, 1] : List ℚ), 0 ≤ x) ∧
    ∃ e, firstElbow [4, 2, 1] = some e ∧
      (∀ (n : ℕ) (r : SelectionResult), select_dimension [4, 2, 1] n = .ok r →
        r.elbows.head? = some e) ∧
      1 ≤ e ∧ e ≤ ([4, 2, 1] : List ℚ).length - 1 ∧
      (∀ i, 1 ≤ i → i ≤ ([4, 2, 1] : List ℚ).length - 1 →
        profileLogLik [4, 2, 1] i ≤ profileLogLik [4, 2, 1] e) ∧
      (∀ i, 1 ≤ i → i ≤ ([4, 2, 1] : List ℚ).length - 1 →
        profileLogLik [4, 2, 1] e ≤ profileLogLik [4, 2, 1] i → e ≤ i) :=
  ⟨⟨by decide, by decide, by decide⟩,
    claim_C1 [4, 2, 1] (by decide) (by decide) (by decide)⟩

/-- Claim C2: every elbow after the first is the first elbow of the
sub-sequence strictly following the previous elbow, shifted by that
elbow's position, and the output on `(values, n)` extends the output on
`(values, n − 1)`. -/
theorem claim_C2 (v : List ℚ) (n : ℕ) (hn : 2 ≤ n) (r : SelectionResult)
    (h : select_dimension v n = .ok r) :
    (∀ j a b, r.elbows[j]? = some a → r.elbows[j + 1]? = some b →
      ∃ e, firstElbow (v.drop a) = some e ∧ b = a + e) ∧
    ∃ r', select_dimension v (n - 1) = .ok r' ∧
      r'.elbows = r.elbows.take (n - 1) := by
  constructor
  · exact elbowChain_consecutive v r.elbows 0 (select_ok_chain v n r h)
  · obtain ⟨hv, hE, _⟩ := select_ok_elim v n r h
    have htake := elbowsAux_take v n (n - 1) 0 r.elbows (by omega)
      (by rw [List.drop_zero]; exact hE)
    rw [List.drop_zero] at htake
    refine ⟨⟨r.elbows.take (n - 1), (r.elbows.take (n - 1)).getLastD 0⟩, ?_, rfl⟩
    unfold select_dimension
    rw [if_pos ⟨hv.1, hv.2.1, by omega⟩, htake]

/-- Witness for C2 at the concrete input `[10, 10, 1, 1, 1]` with two
elbows requested. -/
theorem claim_C2_witness :
    (2 ≤ 2 ∧ select_dimension [10, 10, 1, 1, 1] 2 = .ok ⟨[2, 3], 3⟩) ∧
    (∀ j a b, ([2, 3] : List ℕ)[j]? = some a →
        ([2, 3] : List ℕ)[j + 1]? = some b →
      ∃ e, firstElbow (([10, 10, 1, 1, 1] : List ℚ).drop a) = some e ∧
        b = a + e) ∧
    ∃ r', select_dimension [10, 10, 1, 1, 1] (2 - 1) = .ok r' ∧
      r'.elbows = ([2, 3] : List ℕ).take (2 - 1) :=
  ⟨⟨by decide, eval_select_ten_two⟩,
    claim_C2 [10, 10, 1, 1, 1] 2 (by decide) ⟨[2, 3], 3⟩ eval_select_ten_two⟩

/-- Claim C3: on every valid input on which `select_dimension` succeeds,
the recommended dimension lies in `[1, length]`, the elbow indices are
strictly increasing and bounded by the length, and the first elbow lies in
`[1, length − 1]`. -/
theorem claim_C3 (v : List ℚ) (n : ℕ) (r : SelectionResult)
    (hlen : 2 ≤ v.length) (hdesc : v.Sorted (· ≥ ·)) (hnn : ∀ x ∈ v, 0 ≤ x)
    (hne : 1 ≤ n) (h : select_dimension v n = .ok r) :
    (1 ≤ r.dimension ∧ r.dimension ≤ v.length) ∧
    r.elbows.Pairwise (· < ·) ∧
    (∀ a ∈ r.elbows, 1 ≤ a ∧ a ≤ v.length) ∧
    ∀ e, r.elbows.head? = some e → 1 ≤ e ∧ e ≤ v.length - 1 := by
  obtain ⟨hbnds, hpw⟩ := select_ok_bounds v n r h
  have hlen' := select_ok_length v n r h
  have hdim := (select_ok_elim v n r h).2.2
  have hne' : r.elbows ≠ [] := by
    intro hc
    rw [hc] at hlen'
    simp at hlen'
    omega
  have hmem : r.elbows.getLastD 0 ∈ r.elbows := getLastD_mem _ hne'
  refine ⟨⟨?_, ?_⟩, hpw, ?_, ?_⟩
  · rw [hdim]
    exact (hbnds _ hmem).1
  · rw [hdim]
    have := (hbnds _ hmem).2
    omega
  · intro a ha
    have := hbnds a ha
    omega
  · intro e hh
    obtain ⟨e', he', hh'⟩ := select_ok_head v n r h hne
    rw [hh] at hh'
    injection hh' with heq
    obtain ⟨⟨h1, h2⟩, _, _⟩ := firstElbow_spec v e' he'
    omega

/-- Witness for C3 at the concrete descending input `[4, 2, 1]`. -/
theorem claim_C3_witness :
    (2 ≤ ([4, 2, 1] : List ℚ).length ∧ ([4, 2, 1] : List ℚ).Sorted (· ≥ ·) ∧
      (∀ x ∈ ([4, 2, 1] : List ℚ), 0 ≤ x) ∧ 1 ≤ 1 ∧
      select_dimension [4, 2, 1] 1 = .ok ⟨[1], 1⟩) ∧
    ((1 ≤ (1 : ℕ) ∧ 1 ≤ ([4, 2, 1] : List ℚ).length) ∧
      ([1] : List ℕ).Pairwise (· < ·) ∧
      (∀ a ∈ ([1] : List ℕ), 1 ≤ a ∧ a ≤ ([4, 2, 1] : List ℚ).length) ∧
      ∀ e, ([1] : List ℕ).head? = some e →
        1 ≤ e ∧ e ≤ ([4, 2, 1] : List ℚ).length - 1) :=
  ⟨⟨by decide, by decide, by decide, le_refl 1, eval_select_desc⟩,
    claim_C3 [4, 2, 1] 1 ⟨[1], 1⟩ (by decide) (by decide) (by decide)
      (le_refl 1) eval_select_desc⟩

end ElbowSel

namespace ElbowSel

/-- Claim C4: `select_dimension` fails with the invalid-input error exactly
when the sequence is shorter than 2, contains a negative value, or fewer
than one elbow is requested; it fails with the unsatisfiable-request error
exactly when the input is valid but fewer elbows exist than requested; and
the outcome is always either a complete result or an error, never both. -/
theorem claim_C4 (v : List ℚ) (n : ℕ) :
    (select_dimension v n = .error .invalidInput ↔
      v.length < 2 ∨ (∃ x ∈ v, x < 0) ∨ n < 1) ∧
    (select_dimension v n = .error .unsatisfiable ↔
      ¬ (v.length < 2 ∨ (∃ x ∈ v, x < 0) ∨ n < 1) ∧ countElbows v < n) ∧
    ((∃ r, select_dimension v n = .ok r) ↔
      ¬ ∃ err, select_dimension v n = .error err) := by
  have hval : ¬ validInput v n ↔ (v.length < 2 ∨ (∃ x ∈ v, x < 0) ∨ n < 1) := by
    unfold validInput
    constructor
    · intro h
      by_contra hc
      push_neg at hc
      obtain ⟨h1, h2, h3⟩ := hc
      exact h ⟨by omega, fun x hx => h2 x hx, by omega⟩
    · intro h hv
      obtain ⟨h1, h2, h3⟩ := hv
      rcases h with h | h | h
      · omega
      · obtain ⟨x, hx, hxneg⟩ := h
        exact absurd (h2 x hx) (not_le.2 hxneg)
      · omega
  refine ⟨?_, ?_, ?_⟩
  · rw [select_dimension_invalid_iff, hval]
  · rw [select_dimension_unsat_iff]
    constructor
    · intro ⟨ha, hb⟩
      exact ⟨fun hc => hval.2 hc ha, hb⟩
    · intro ⟨ha, hb⟩
      refine ⟨?_, hb⟩
      by_contra hc
      exact ha (hval.1 hc)
  · cases hs : select_dimension v n with
    | ok r => simp
    | error err => simp

/-- Claim C5: on the sequence `[10, 10, 1, 1, 1]` with one elbow requested,
`select_dimension` returns elbow index 2 and recommended dimension 2. -/
theorem claim_C5 : select_dimension [10, 10, 1, 1, 1] 1 = .ok ⟨[2], 2⟩ :=
  eval_select_ten_one

/-- Counterexample to C6 as stated: on the flat sequence `[5, 5, 5, 5]`
(midpoint index 2) the selector neither fails nor returns the midpoint —
the smallest-index tie-breaking rule makes it return elbow index 1. -/
theorem claim_C6_counterexample :
    select_dimension [5, 5, 5, 5] 1 = .ok ⟨[1], 1⟩ ∧
    (∀ r : SelectionResult, select_dimension [5, 5, 5, 5] 1 = .ok r →
      r.dimension ≠ 2) ∧
    ∀ err : SelErr, select_dimension [5, 5, 5, 5] 1 ≠ .error err := by
  refine ⟨eval_select_flat_four, ?_, ?_⟩
  · intro r hr
    rw [eval_select_flat_four] at hr
    injection hr with heq
    rw [← heq]
    decide
  · intro err hc
    rw [eval_select_flat_four] at hc
    exact absurd hc (by simp)

/-- Claim C6 (amended): on every flat non-negative sequence of length at
least 2 with one elbow requested, `select_dimension` deterministically
returns elbow index 1 (the smallest tied index), the same for every flat
sequence — not the midpoint and not an error. -/
theorem claim_C6 (k : ℕ) (c : ℚ) (hc : 0 ≤ c) (hk : 2 ≤ k) :
    select_dimension (List.replicate k c) 1 = .ok ⟨[1], 1⟩ :=
  select_dimension_flat k c hc hk

/-- Witness for the amended C6 on the flat sequence of four fives. -/
theorem claim_C6_witness :
    ((0 : ℚ) ≤ 5 ∧ 2 ≤ 4) ∧
      select_dimension (List.replicate 4 (5 : ℚ)) 1 = .ok ⟨[1], 1⟩ :=
  ⟨⟨by decide, by decide⟩, claim_C6 4 5 (by decide) (by decide)⟩

/-- Claim C7: `select_dimension` is deterministic — equal inputs give
identical outputs (it is a pure function of its arguments). -/
theorem claim_C7 (v₁ v₂ : List ℚ) (n₁ n₂ : ℕ) (hv : v₁ = v₂) (hn : n₁ = n₂) :
    select_dimension v₁ n₁ = select_dimension v₂ n₂ := by
  rw [hv, hn]

/-- Witness for C7 at a concrete input. -/
theorem claim_C7_witness :
    (([3, 1] : List ℚ) = [3, 1] ∧ (1 : ℕ) = 1) ∧
      select_dimension [3, 1] 1 = select_dimension [3, 1] 1 :=
  ⟨⟨rfl, rfl⟩, claim_C7 [3, 1] [3, 1] 1 1 rfl rfl⟩

/-- Claim C9: in notebook cell-27, the statements `P[P==0][:45] = btwn` and
`P[P==0][45:] = np.flip(btwn)` write into temporary copies produced by
boolean fancy indexing, so for every loop value `b` the matrix `P` passed
to `sbm` is still exactly the 10×10 identity. -/
theorem claim_C9 (b : ℚ) :
    cell27_P b = npIdentity 10 ∧
    ∀ i j, i < 10 → j < 10 →
      entry (cell27_P b) i j = if i = j then 1 else 0 :=
  ⟨rfl, fun i j hi hj => npIdentity_entry 10 i j hi hj⟩

/-- Claim C10: after each iteration of the cell-8 extension loop the block
probability matrix is square and symmetric with `within_block` on the
diagonal and `btwn_block` off it, growing by one row and column per
iteration from 2×2 up to 101×101 after the 99th extension. -/
theorem claim_C10 (t : ℕ) :
    blockProp (extendP^[t] P0) (t + 2) ∧
    (∀ i j, i < t + 2 → j < t + 2 →
      entry (extendP^[t] P0) i j = entry (extendP^[t] P0) j i) ∧
    (extendP^[99] P0).length = 101 := by
  refine ⟨blockProp_iterate t, ?_, (blockProp_iterate 99).1⟩
  intro i j hi hj
  have h := (blockProp_iterate t).2.2
  rw [h i j hi hj, h j i hj hi]
  by_cases hij : i = j
  · rw [hij]
  · rw [if_neg hij, if_neg (fun hc => hij hc.symm)]

end ElbowSel
